import Mathlib

/-!
Verification of the aggregation-and-layout engine of a Git contribution
statistics tool.  The Go source (stats.go) is shallowly embedded here:
timestamps are seconds as natural numbers, Go maps are association lists,
commit streams are lists, and terminal output is modelled as the sequence
of (escape, text) pairs the renderer would print.  Out-of-bounds slice
indexing (a Go panic) is modelled with Option.
-/

namespace GitStats

/-- Sentinel constant marking commit dates too old, from const outOfRange = 99999. -/
def outOfRange : Nat := 99999

/-- Window size in days, from const daysInLastSixMonths = 183. -/
def daysInLastSixMonths : Nat := 183

/-- Number of weeks tracked, from const weeksInLastSixMonths = 26. -/
def weeksInLastSixMonths : Nat := 26

/-- Seconds per day; the embedding measures time in seconds with fixed-length days. -/
def secondsPerDay : Nat := 86400

/-- Translation of getBeginningOfDay: truncate a timestamp to the start of its day. -/
def getBeginningOfDay (t : Nat) : Nat := t / secondsPerDay * secondsPerDay

/-- The loop body of countDaysSinceDate.  The first argument is fuel that the
Go loop never exhausts (the loop returns outOfRange as soon as the running
day count exceeds daysInLastSixMonths, so at most daysInLastSixMonths + 1
iterations happen); with fuel daysInLastSixMonths + 1 this function is
exactly the Go loop. -/
def countLoop : Nat → Nat → Nat → Nat → Nat
  | 0, _, _, days => days
  | fuel + 1, now, date, days =>
    if date < now then
      (if days + 1 > daysInLastSixMonths then outOfRange
       else countLoop fuel now (date + secondsPerDay) (days + 1))
    else days

/-- Translation of countDaysSinceDate: count whole-day steps from the commit
timestamp forward until reaching the beginning of today; outOfRange once the
count exceeds the window. -/
def countDaysSinceDate (now date : Nat) : Nat :=
  countLoop (daysInLastSixMonths + 1) (getBeginningOfDay now) date 0

/-- Weekdays, mirroring Go time.Weekday. -/
inductive Weekday where
  | sunday
  | monday
  | tuesday
  | wednesday
  | thursday
  | friday
  | saturday
deriving DecidableEq

/-- Weekday of a timestamp; day 0 of the embedded clock (the Unix epoch) is a
Thursday, as in Go's time package. -/
def weekdayOf (t : Nat) : Weekday :=
  match (t / secondsPerDay + 4) % 7 with
  | 0 => .sunday
  | 1 => .monday
  | 2 => .tuesday
  | 3 => .wednesday
  | 4 => .thursday
  | 5 => .friday
  | _ => .saturday

/-- Translation of calcOffset: the switch on today's weekday. -/
def calcOffset (w : Weekday) : Nat :=
  match w with
  | .sunday => 7
  | .monday => 6
  | .tuesday => 5
  | .wednesday => 4
  | .thursday => 3
  | .friday => 2
  | .saturday => 1

/-- A commit record: author email, timestamp (seconds), changed file names. -/
structure Commit where
  authorEmail : String
  whenSec : Nat
  files : List (List Char)
deriving DecidableEq

/-- Lookup in a Go map modelled as an association list; absent keys read as 0. -/
def mget [DecidableEq α] : List (α × Nat) → α → Nat
  | [], _ => 0
  | (a, v) :: rest, k => if a = k then v else mget rest k

/-- Go map increment m[k]++ : bump the entry in place, or insert the key with 1. -/
def mbump [DecidableEq α] : List (α × Nat) → α → List (α × Nat)
  | [], k => [(k, 1)]
  | (a, v) :: rest, k => if a = k then (a, v + 1) :: rest else (a, v) :: mbump rest k

/-- Go map addition m[k] += n. -/
def mAdd [DecidableEq α] : List (α × Nat) → α → Nat → List (α × Nat)
  | [], k, n => [(k, n)]
  | (a, v) :: rest, k, n => if a = k then (a, v + n) :: rest else (a, v) :: mAdd rest k n

/-- Keys of a Go map modelled as an association list. -/
def mkeys (m : List (α × Nat)) : List α := m.map Prod.fst

/-- The commit histogram map[int]int : day offset to commit count. -/
abbrev CommitHist := List (Nat × Nat)

/-- The file type histogram map[string]int : extension to file count. -/
abbrev FileHist := List (List Char × Nat)

/-- Translation of getFileExtension's strings.Split(filename, "."). -/
def splitDot : List Char → List (List Char)
  | [] => [[]]
  | c :: cs =>
    match splitDot cs with
    | [] => [[]]
    | p :: ps => if c = '.' then [] :: p :: ps else (c :: p) :: ps

/-- Translation of getFileExtension. -/
def getFileExtension (filename : List Char) : List Char :=
  let parts := splitDot filename
  if parts.length < 2 then "no_extension".toList
  else '.' :: parts.getLastD []

/-- Translation of processFileTypes: count the extension of every changed file. -/
def processFileTypes (c : Commit) (fileTypes : FileHist) : FileHist :=
  c.files.foldl (fun m f => mbump m (getFileExtension f)) fileTypes

/-- The body of fillCommits' commit iterator: compute daysAgo (with the
alignment offset added), skip commits by other authors, and if daysAgo is not
the outOfRange sentinel increment the day bucket and the file type counts. -/
def fillStep (email : String) (now : Nat) (st : CommitHist × FileHist) (c : Commit) :
    CommitHist × FileHist :=
  let offset := calcOffset (weekdayOf now)
  let daysAgo := countDaysSinceDate now c.whenSec + offset
  if c.authorEmail ≠ email then st
  else if daysAgo ≠ outOfRange then (mbump st.1 daysAgo, processFileTypes c st.2)
  else st

/-- Translation of fillCommits for one repository: fold the iterator body over
the repository's commit stream, starting from the accumulated commit histogram
and a fresh file type histogram. -/
def fillCommits (email : String) (now : Nat) (commitsIn : CommitHist) (cs : List Commit) :
    CommitHist × FileHist :=
  cs.foldl (fillStep email now) (commitsIn, ([] : FileHist))

/-- The histogram seeding loop of processRepositories:
for i := daysInMap; i > 0; i-- followed by commits[i] = 0. -/
def seedHist : CommitHist :=
  (List.range daysInLastSixMonths).map (fun i => (daysInLastSixMonths - i, 0))

/-- The merge loop of processRepositories: add one repository's file type
counts into the running totals. -/
def mergeFileTypes (acc newFT : FileHist) : FileHist :=
  newFT.foldl (fun a p => mAdd a p.1 p.2) acc

/-- The repository loop of processRepositories: run fillCommits per repository
on the shared commit histogram and merge the per-repository file type maps. -/
def procLoop (email : String) (now : Nat) :
    List (List Commit) → CommitHist → FileHist → CommitHist × FileHist
  | [], commits, allFT => (commits, allFT)
  | repo :: rest, commits, allFT =>
    let res := fillCommits email now commits repo
    procLoop email now rest res.1 (mergeFileTypes allFT res.2)

/-- One row of the file type statistics table. -/
structure FileTypeStats where
  Extension : List Char
  Count : Nat
deriving DecidableEq

/-- The ordering used by processRepositories' sort.Slice call: higher counts first. -/
def statGE (a b : FileTypeStats) : Prop := b.Count ≤ a.Count

instance : DecidableRel statGE := fun a b => inferInstanceAs (Decidable (b.Count ≤ a.Count))

instance : IsTotal FileTypeStats statGE :=
  ⟨fun a b => Nat.le_total b.Count a.Count⟩

instance : IsTrans FileTypeStats statGE :=
  ⟨fun _ _ _ h1 h2 => Nat.le_trans h2 h1⟩

/-- Translation of processRepositories: seed the commit histogram, process
every repository, and sort the merged file type counts descending. -/
def processRepositoriesModel (email : String) (now : Nat) (repos : List (List Commit)) :
    CommitHist × List FileTypeStats :=
  let res := procLoop email now repos seedHist []
  (res.1, List.insertionSort statGE (res.2.map (fun p => ⟨p.1, p.2⟩)))

/-- Translation of sortMapIntoSlice: the sorted list of histogram keys. -/
def sortMapIntoSlice (m : CommitHist) : List Nat :=
  List.insertionSort (· ≤ ·) (mkeys m)

/-- The week-indexed column store map[int]column. -/
abbrev Cols := List (Nat × List Nat)

/-- Go map assignment cols[week] = col. -/
def colsPut : Cols → Nat → List Nat → Cols
  | [], w, c => [(w, c)]
  | (a, b) :: rest, w, c => if a = w then (a, c) :: rest else (a, b) :: colsPut rest w c

/-- Go map read with presence flag: col, ok := cols[i]. -/
def colsGet : Cols → Nat → Option (List Nat)
  | [], _ => none
  | (a, b) :: rest, w => if a = w then some b else colsGet rest w

/-- The body of buildCols' loop over the sorted keys: reset the working column
at the start of a week (key mod 7 = 0), append the key's count, and store the
column when the week ends (key mod 7 = 6). -/
def buildStep (commits : CommitHist) (st : Cols × List Nat) (k : Nat) : Cols × List Nat :=
  let col0 := if k % 7 = 0 then ([] : List Nat) else st.2
  let col := col0 ++ [mget commits k]
  (if k % 7 = 6 then colsPut st.1 (k / 7) col else st.1, col)

/-- Translation of buildCols. -/
def buildCols (keys : List Nat) (commits : CommitHist) : Cols :=
  (keys.foldl (buildStep commits) (([] : Cols), ([] : List Nat))).1

/-- Escape code for empty cells. -/
def escEmpty : String := "\x1b[0;37;30m"

/-- Escape code for 1 to 4 commits. -/
def escLow : String := "\x1b[1;30;47m"

/-- Escape code for 5 to 9 commits. -/
def escMed : String := "\x1b[1;30;43m"

/-- Escape code for 10 or more commits. -/
def escHigh : String := "\x1b[1;30;42m"

/-- Escape code for the today cell. -/
def escToday : String := "\x1b[1;37;45m"

/-- The escape-code selection of printCell: a first-match switch on the count,
then an unconditional override when the cell is today. -/
def cellEscape (val : Nat) (today : Bool) : String :=
  let esc :=
    if 0 < val ∧ val < 5 then escLow
    else if 5 ≤ val ∧ val < 10 then escMed
    else if 10 ≤ val then escHigh
    else escEmpty
  if today then escToday else esc

/-- The text of a cell as formatted by printCell.  The Go switch tests
val >= 10 before val >= 100, so the three-digit format string is never
selected; the translation preserves that order. -/
def cellText (val : Nat) : String :=
  if val = 0 then "  - "
  else if 10 ≤ val then " " ++ toString val ++ " "
  else if 100 ≤ val then toString val ++ " "
  else "  " ++ toString val ++ " "

/-- What printCell writes: the escape code followed by the cell text. -/
def printCellM (val : Nat) (today : Bool) : String × String :=
  (cellEscape val today, cellText val)

/-- One cell of printCells' grid, for week i (column) and weekday j (row).
The today cell (week 0, row calcOffset minus 1) indexes the column without
the length guard used for ordinary cells; an out-of-bounds index there is a
Go panic, modelled as none. -/
def renderCellAt (cols : Cols) (offset i j : Nat) : Option (String × String) :=
  match colsGet cols i with
  | some col =>
    if i = 0 ∧ j = offset - 1 then (col[j]?).map (fun v => printCellM v true)
    else if j < col.length then some (printCellM (col.getD j 0) false)
    else some (printCellM 0 false)
  | none => some (printCellM 0 false)

/-- One data row of printCells: the cells for the given weekday row j, for the
given (descending) list of week indices. -/
def renderRow (cols : Cols) (offset j : Nat) : List Nat → Option (List (String × String))
  | [] => some []
  | i :: is =>
    match renderCellAt cols offset i j with
    | none => none
    | some c =>
      match renderRow cols offset j is with
      | none => none
      | some cs => some (c :: cs)

/-- The data rows of printCells, for the given (descending) list of weekday rows. -/
def renderRows (cols : Cols) (offset : Nat) : List Nat → Option (List (List (String × String)))
  | [] => some []
  | j :: js =>
    match renderRow cols offset j ((List.range (weeksInLastSixMonths + 2)).reverse) with
    | none => none
    | some r =>
      match renderRows cols offset js with
      | none => none
      | some rs => some (r :: rs)

/-- Translation of printCells' cell output: rows for weekdays 6 down to 0,
weeks weeksInLastSixMonths + 1 down to 0; none when the unguarded today-cell
access panics. -/
def printCellsModel (cols : Cols) (offset : Nat) : Option (List (List (String × String))) :=
  renderRows cols offset ((List.range 7).reverse)

/-- Translation of printFileTypeStats' selection: the entries printed are
stats[0] through stats[limit - 1] where limit is capped at 10. -/
def printFileTypeStatsModel (stats : List FileTypeStats) : List FileTypeStats :=
  let limit := if stats.length < 10 then stats.length else 10
  (List.range limit).map (fun i => stats.getD i ⟨[], 0⟩)

/-! ### Association-list map lemmas -/

theorem mget_mbump [DecidableEq α] (m : List (α × Nat)) (k x : α) :
    mget (mbump m k) x = mget m x + (if x = k then 1 else 0) := by
  induction m with
  | nil =>
    simp only [mbump, mget]
    by_cases h : x = k
    · subst h; simp
    · rw [if_neg (fun hh => h hh.symm), if_neg h]
  | cons p rest ih =>
    obtain ⟨a, v⟩ := p
    by_cases hak : a = k
    · subst hak
      simp only [mbump, if_pos rfl, mget]
      by_cases hax : a = x
      · subst hax; simp
      · rw [if_neg hax, if_neg hax, if_neg (fun hh : x = a => hax hh.symm)]
        omega
    · simp only [mbump, if_neg hak, mget]
      by_cases hax : a = x
      · subst hax
        rw [if_pos rfl, if_pos rfl, if_neg (fun hh : a = k => hak hh)]
        omega
      · rw [if_neg hax, if_neg hax, ih]

theorem mget_mAdd [DecidableEq α] (m : List (α × Nat)) (k x : α) (n : Nat) :
    mget (mAdd m k n) x = mget m x + (if x = k then n else 0) := by
  induction m with
  | nil =>
    simp only [mAdd, mget]
    by_cases h : x = k
    · subst h; simp
    · rw [if_neg (fun hh => h hh.symm), if_neg h]
  | cons p rest ih =>
    obtain ⟨a, v⟩ := p
    by_cases hak : a = k
    · subst hak
      simp only [mAdd, if_pos rfl, mget]
      by_cases hax : a = x
      · subst hax; simp
      · rw [if_neg hax, if_neg hax, if_neg (fun hh : x = a => hax hh.symm)]
        omega
    · simp only [mAdd, if_neg hak, mget]
      by_cases hax : a = x
      · subst hax
        rw [if_pos rfl, if_pos rfl, if_neg (fun hh : a = k => hak hh)]
        omega
      · rw [if_neg hax, if_neg hax, ih]

theorem mkeys_mbump [DecidableEq α] (m : List (α × Nat)) (k : α) :
    mkeys (mbump m k) = if k ∈ mkeys m then mkeys m else mkeys m ++ [k] := by
  induction m with
  | nil => simp [mbump, mkeys]
  | cons p rest ih =>
    obtain ⟨a, v⟩ := p
    by_cases hak : a = k
    · subst hak
      simp [mbump, mkeys]
    · have hka : ¬ k = a := fun hh => hak hh.symm
      have hcons : (k ∈ mkeys ((a, v) :: rest)) ↔ k ∈ mkeys rest := by
        simp [mkeys, hka]
      simp only [mbump, if_neg hak]
      by_cases hmem : k ∈ mkeys rest
      · rw [if_pos (hcons.mpr hmem)]
        show a :: mkeys (mbump rest k) = a :: mkeys rest
        rw [ih, if_pos hmem]
      · rw [if_neg (fun hh => hmem (hcons.mp hh))]
        show a :: mkeys (mbump rest k) = mkeys ((a, v) :: rest) ++ [k]
        rw [ih, if_neg hmem]
        simp [mkeys]

theorem mget_eq_zero_of_not_mem [DecidableEq α] (m : List (α × Nat)) (x : α)
    (h : x ∉ mkeys m) : mget m x = 0 := by
  induction m with
  | nil => rfl
  | cons p rest ih =>
    obtain ⟨a, v⟩ := p
    simp only [mkeys, List.map_cons, List.mem_cons] at h
    push_neg at h
    simp only [mget]
    rw [if_neg (fun hh => h.1 hh.symm)]
    exact ih (by simpa [mkeys] using h.2)

theorem mget_zero_of_all_zero [DecidableEq α] (m : List (α × Nat)) (x : α)
    (h : ∀ p ∈ m, p.2 = 0) : mget m x = 0 := by
  induction m with
  | nil => rfl
  | cons p rest ih =>
    obtain ⟨a, v⟩ := p
    simp only [mget]
    have hv : v = 0 := h (a, v) (List.mem_cons_self _ _)
    split_ifs <;> simp_all

theorem mget_seedHist (k : Nat) : mget seedHist k = 0 := by
  refine mget_zero_of_all_zero _ _ (fun p hp => ?_)
  simp only [seedHist, List.mem_map] at hp
  obtain ⟨i, _, hi⟩ := hp
  exact (congrArg Prod.snd hi).symm

/-! ### Day counting lemmas -/

theorem calcOffset_bounds (w : Weekday) : 1 ≤ calcOffset w ∧ calcOffset w ≤ 7 := by
  cases w <;> decide

theorem calcOffset_eq_seven_iff (w : Weekday) : calcOffset w = 7 ↔ w = Weekday.sunday := by
  cases w <;> decide

theorem countLoop_bounds (fuel : Nat) : ∀ now date days, days ≤ daysInLastSixMonths →
    countLoop fuel now date days ≤ daysInLastSixMonths ∨
      countLoop fuel now date days = outOfRange := by
  induction fuel with
  | zero => intro now date days h; exact Or.inl h
  | succ f ih =>
    intro now date days h
    simp only [countLoop]
    split_ifs with h1 h2
    · exact Or.inr rfl
    · exact ih now (date + secondsPerDay) (days + 1) (by omega)
    · exact Or.inl h

theorem countDaysSinceDate_bounds (now t : Nat) :
    countDaysSinceDate now t ≤ daysInLastSixMonths ∨
      countDaysSinceDate now t = outOfRange :=
  countLoop_bounds _ _ _ 0 (by omega)

theorem countLoop_day_shift (fuel : Nat) : ∀ now d s days, s < secondsPerDay →
    now % secondsPerDay = 0 →
    countLoop fuel now (d * secondsPerDay + s) days =
      countLoop fuel now (d * secondsPerDay) days := by
  induction fuel with
  | zero => intro now d s days _ _; simp only [countLoop]
  | succ f ih =>
    intro now d s days hs hn
    have hq : now / secondsPerDay * secondsPerDay = now :=
      Nat.div_mul_cancel (Nat.dvd_of_mod_eq_zero hn)
    set q := now / secondsPerDay with hqdef
    have hcond : (d * secondsPerDay + s < now) ↔ (d * secondsPerDay < now) := by
      constructor
      · intro h; exact Nat.lt_of_le_of_lt (Nat.le_add_right _ _) h
      · intro h
        rw [← hq] at h ⊢
        have hdq : d < q := by
          exact Nat.lt_of_mul_lt_mul_right h
        calc d * secondsPerDay + s < d * secondsPerDay + secondsPerDay := by omega
          _ = (d + 1) * secondsPerDay := by ring
          _ ≤ q * secondsPerDay := Nat.mul_le_mul_right _ hdq
    simp only [countLoop]
    by_cases hlt : d * secondsPerDay < now
    · rw [if_pos (hcond.mpr hlt), if_pos hlt]
      by_cases hcap : days + 1 > daysInLastSixMonths
      · rw [if_pos hcap, if_pos hcap]
      · rw [if_neg hcap, if_neg hcap]
        have e1 : d * secondsPerDay + s + secondsPerDay =
            (d + 1) * secondsPerDay + s := by ring
        have e2 : d * secondsPerDay + secondsPerDay = (d + 1) * secondsPerDay := by ring
        rw [e1, e2]
        exact ih now (d + 1) s (days + 1) hs hn
    · rw [if_neg (fun hh => hlt (hcond.mp hh)), if_neg hlt]

theorem countDaysSinceDate_day_only (now t : Nat) :
    countDaysSinceDate now t =
      countDaysSinceDate now (t / secondsPerDay * secondsPerDay) := by
  have hsplit : t = t / secondsPerDay * secondsPerDay + t % secondsPerDay := by
    simp only [secondsPerDay]; omega
  have hmod : getBeginningOfDay now % secondsPerDay = 0 := by
    simp [getBeginningOfDay, Nat.mul_mod_left]
  unfold countDaysSinceDate
  conv_lhs => rw [hsplit]
  exact countLoop_day_shift _ _ _ _ _ (Nat.mod_lt _ (by norm_num [secondsPerDay])) hmod

/-! ### File extension lemmas -/

theorem splitDot_cons_eq (c : Char) (cs : List Char) (p : List Char) (ps : List (List Char))
    (h : splitDot cs = p :: ps) :
    splitDot (c :: cs) = if c = '.' then [] :: p :: ps else (c :: p) :: ps := by
  simp only [splitDot]
  rw [h]

theorem splitDot_no_dot (fn : List Char) (h : '.' ∉ fn) : splitDot fn = [fn] := by
  induction fn with
  | nil => rfl
  | cons c cs ih =>
    simp only [List.mem_cons, not_or] at h
    have hc : ¬ c = '.' := fun hh => h.1 hh.symm
    rw [splitDot_cons_eq c cs cs [] (ih h.2), if_neg hc]

theorem splitDot_append_dot (b : List Char) (hb : '.' ∉ b) :
    ∀ a : List Char, ∃ q qs, splitDot (a ++ '.' :: b) = (q :: qs) ++ [b] := by
  intro a
  induction a with
  | nil =>
    refine ⟨[], [], ?_⟩
    simp only [List.nil_append, splitDot, splitDot_no_dot b hb]
    simp
  | cons c a' ih =>
    obtain ⟨q, qs, hq⟩ := ih
    have hstep := splitDot_cons_eq c (a' ++ '.' :: b) q (qs ++ [b]) hq
    by_cases hc : c = '.'
    · refine ⟨[], q :: qs, ?_⟩
      rw [List.cons_append, hstep, if_pos hc]
      simp
    · refine ⟨c :: q, qs, ?_⟩
      rw [List.cons_append, hstep, if_neg hc]
      simp

/-! ### Claims about extension extraction, ranking, cell rendering, day counting -/

/-- C10: the extracted extension is the last dot-delimited suffix with case
preserved; any filename containing no dot maps to the sentinel category
no_extension; the files main.go, util.go, readme yield a file type histogram
with .go at 2 and no_extension at 1. -/
theorem c10_extension_extraction :
    (∀ fn : List Char, '.' ∉ fn → getFileExtension fn = "no_extension".toList) ∧
    (∀ a b : List Char, '.' ∉ b → getFileExtension (a ++ '.' :: b) = '.' :: b) ∧
    (mget (processFileTypes ⟨"a@x.com", 0,
        ["main.go".toList, "util.go".toList, "readme".toList]⟩ []) (".go".toList) = 2 ∧
     mget (processFileTypes ⟨"a@x.com", 0,
        ["main.go".toList, "util.go".toList, "readme".toList]⟩ [])
       ("no_extension".toList) = 1) := by
  refine ⟨?_, ?_, by decide⟩
  · intro fn h
    simp [getFileExtension, splitDot_no_dot fn h]
  · intro a b hb
    obtain ⟨q, qs, hq⟩ := splitDot_append_dot b hb a
    have hlen : ¬ ((q :: qs) ++ [b]).length < 2 := by
      simp only [List.length_append, List.length_cons, List.length_singleton]
      omega
    simp only [getFileExtension, hq, if_neg hlen, List.getLastD_concat]

theorem map_getD_range_eq_take (l : List α) (d : α) :
    ∀ n, n ≤ l.length → (List.range n).map (fun i => l.getD i d) = l.take n := by
  intro n hn
  induction n with
  | zero => simp
  | succ n ih =>
    have hlt : n < l.length := by omega
    rw [List.range_succ, List.map_append, ih (by omega), List.take_succ]
    simp only [List.map_cons, List.map_nil]
    rw [List.getElem?_eq_getElem hlt, List.getD_eq_getElem l d hlt]
    rfl

/-- C9: the ranker produces a sequence sorted descending by count, the printer
emits exactly the first min(10, length) entries, and on the histogram with
.go at 5, .md at 5, .js at 2 the entry .js comes last with count 2 while the
tied entries .go and .md each appear exactly once. -/
theorem c9_ranker :
    (∀ l : List FileTypeStats, List.Sorted statGE (List.insertionSort statGE l)) ∧
    (∀ stats : List FileTypeStats,
      printFileTypeStatsModel stats = stats.take (min 10 stats.length)) ∧
    ((List.insertionSort statGE
        [⟨".go".toList, 5⟩, ⟨".md".toList, 5⟩, ⟨".js".toList, 2⟩]).getLast? =
          some ⟨".js".toList, 2⟩ ∧
     (List.insertionSort statGE
        [⟨".go".toList, 5⟩, ⟨".md".toList, 5⟩, ⟨".js".toList, 2⟩]).count
          ⟨".go".toList, 5⟩ = 1 ∧
     (List.insertionSort statGE
        [⟨".go".toList, 5⟩, ⟨".md".toList, 5⟩, ⟨".js".toList, 2⟩]).count
          ⟨".md".toList, 5⟩ = 1 ∧
     (List.insertionSort statGE
        [⟨".go".toList, 5⟩, ⟨".md".toList, 5⟩, ⟨".js".toList, 2⟩]).length = 3) := by
  refine ⟨fun l => List.sorted_insertionSort statGE l, fun stats => ?_, by decide⟩
  simp only [printFileTypeStatsModel]
  have hmin : (if stats.length < 10 then stats.length else 10) = min 10 stats.length := by
    by_cases h : stats.length < 10
    · rw [if_pos h, Nat.min_eq_right (Nat.le_of_lt h)]
    · rw [if_neg h, Nat.min_eq_left (Nat.le_of_not_lt h)]
  rw [hmin]
  exact map_getD_range_eq_take stats ⟨[], 0⟩ _ (Nat.min_le_right _ _)

/-- C4: the cell at week 0 and weekday row offset - 1 is rendered through the
today branch: whatever count it stores (including 0), its escape code is the
distinct today code, which differs from the empty style and all three tier
styles. -/
theorem c4_today_style (cols : Cols) (offset : Nat) (col : List Nat) (v : Nat)
    (h0 : colsGet cols 0 = some col) (hv : col[offset - 1]? = some v) :
    renderCellAt cols offset 0 (offset - 1) = some (escToday, cellText v) ∧
    (∀ u : Nat, cellEscape u true = escToday) ∧
    (∀ u : Nat, cellEscape u false ≠ escToday) := by
  refine ⟨?_, fun u => by simp [cellEscape], fun u => ?_⟩
  · simp [renderCellAt, h0, hv, printCellM, cellEscape]
  · simp only [cellEscape]
    split_ifs <;> first | decide | simp_all

/-- Witness for C4 at a concrete grid: a single column for week 0 holding
count 3, with offset 1. -/
theorem c4_today_style_witness :
    colsGet [(0, [3])] 0 = some [3] ∧
    ([3] : List Nat)[(0 : Nat)]? = some 3 ∧
    renderCellAt [(0, [3])] 1 0 0 = some (escToday, cellText 3) ∧
    cellEscape 0 false ≠ escToday :=
  ⟨by decide, by decide,
    (c4_today_style [(0, [3])] 1 [3] 3 (by decide) (by decide)).1,
    (c4_today_style [(0, [3])] 1 [3] 3 (by decide) (by decide)).2.2 0⟩

/-- C6 (code bug evaluation): the dead val at least 100 switch case makes a
three-digit count render five visible characters while one- and two-digit
counts and the zero dash render four. -/
theorem c6_cell_width :
    cellText 7 = "  7 " ∧ cellText 42 = " 42 " ∧ cellText 100 = " 100 " ∧
    (cellText 0).length = 4 ∧ (cellText 7).length = 4 ∧ (cellText 42).length = 4 ∧
    (cellText 100).length = 5 := by decide

set_option maxRecDepth 100000 in
/-- C1 (code bug evaluation): for a commit 200 days old the day count is the
outOfRange sentinel, the aligned sum exceeds the sentinel, and fillCommits
nevertheless increments the histogram at key sentinel plus offset because the
misfiring check compares the sum, not the raw day count, with the sentinel. -/
theorem c1_sentinel_check_misfires :
    countDaysSinceDate (86400 * 200) 0 = outOfRange ∧
    outOfRange ≤ countDaysSinceDate (86400 * 200) 0 + calcOffset (weekdayOf (86400 * 200)) ∧
    mget ((fillCommits ("a@x.com") (86400 * 200) seedHist
        [⟨"a@x.com", 0, []⟩]).1)
      (outOfRange + calcOffset (weekdayOf (86400 * 200))) = 1 := by
  decide

/-- C7: the aligned bucket is a pure function of the inputs, and two commit
timestamps on the same calendar day receive the same bucket. -/
theorem c7_same_day_same_bucket (now t1 t2 : Nat) (wd : Weekday)
    (hday : t1 / secondsPerDay = t2 / secondsPerDay)
    (_hwin : countDaysSinceDate now t1 ≤ daysInLastSixMonths) :
    countDaysSinceDate now t1 + calcOffset wd =
      countDaysSinceDate now t2 + calcOffset wd := by
  have h1 := countDaysSinceDate_day_only now t1
  have h2 := countDaysSinceDate_day_only now t2
  rw [h1, h2, hday]

set_option maxRecDepth 100000 in
/-- Witness for C7: an evening and a morning timestamp of day 20, seen from
day 200 (a Monday), land in the same bucket. -/
theorem c7_same_day_same_bucket_witness :
    (86400 * 20) / secondsPerDay = (86400 * 20 + 5000) / secondsPerDay ∧
    countDaysSinceDate (86400 * 200) (86400 * 20) ≤ daysInLastSixMonths ∧
    countDaysSinceDate (86400 * 200) (86400 * 20) + calcOffset Weekday.monday =
      countDaysSinceDate (86400 * 200) (86400 * 20 + 5000) + calcOffset Weekday.monday :=
  ⟨by decide, by decide,
    c7_same_day_same_bucket (86400 * 200) (86400 * 20) (86400 * 20 + 5000)
      Weekday.monday (by decide) (by decide)⟩

set_option maxRecDepth 100000 in
/-- C5 counterexample: on a Sunday (alignment offset 7), one matching commit
180 days old is stored at key 187, which exceeds the window size, refuting
the claim that all histogram keys stay at most 183. -/
theorem c5_keys_exceed_window :
    187 ∈ mkeys ((fillCommits ("a@x.com") (86400 * 192) seedHist
        [⟨"a@x.com", 86400 * 12, []⟩]).1) ∧
    daysInLastSixMonths < 187 := by
  decide

set_option maxRecDepth 100000 in
/-- C2 counterexample: on the seeded histogram alone (a run with no commits),
the grid stores only 181 of the 183 bucket entries and holds no column for
week 26, so the trailing partial week (buckets 182 and 183) is dropped, never
sealed. -/
theorem c2_partial_week_dropped :
    colsGet (buildCols (sortMapIntoSlice seedHist) seedHist) 26 = none ∧
    ((buildCols (sortMapIntoSlice seedHist) seedHist).map (fun p => p.2.length)).sum = 181 ∧
    (∀ p ∈ buildCols (sortMapIntoSlice seedHist) seedHist, p.1 ≤ 25) ∧
    181 < daysInLastSixMonths := by
  decide

/-! ### Key-set invariant of the aggregation -/

/-- Invariant on the commit histogram maintained by the aggregation: the
window keys 1..183 are always present, every key is positive and either at
most 190 or in the misfired sentinel band, and keys are unduplicated. -/
def KeysOK (m : CommitHist) : Prop :=
  (∀ j, 1 ≤ j → j ≤ daysInLastSixMonths → j ∈ mkeys m) ∧
  (∀ k ∈ mkeys m, 1 ≤ k ∧ (k ≤ 190 ∨ (100000 ≤ k ∧ k ≤ 100006))) ∧
  (mkeys m).Nodup

theorem mkeys_seedHist :
    mkeys seedHist =
      (List.range daysInLastSixMonths).map (fun i => daysInLastSixMonths - i) := by
  simp only [seedHist, mkeys, List.map_map]
  rfl

theorem keysOK_seedHist : KeysOK seedHist := by
  have h183 : daysInLastSixMonths = 183 := rfl
  refine ⟨?_, ?_, ?_⟩
  · intro j h1 h2
    rw [mkeys_seedHist]
    simp only [List.mem_map, List.mem_range]
    exact ⟨daysInLastSixMonths - j, by omega, by omega⟩
  · intro k hk
    rw [mkeys_seedHist] at hk
    simp only [List.mem_map, List.mem_range] at hk
    obtain ⟨i, hi, rfl⟩ := hk
    omega
  · rw [mkeys_seedHist]
    refine List.Nodup.map_on ?_ (List.nodup_range _)
    intro x hx y hy hxy
    simp only [List.mem_range] at hx hy
    omega

theorem keysOK_mbump (m : CommitHist) (k : Nat) (h : KeysOK m) (hk1 : 1 ≤ k)
    (hk2 : k ≤ 190 ∨ (100000 ≤ k ∧ k ≤ 100006)) : KeysOK (mbump m k) := by
  obtain ⟨hseed, hbound, hnd⟩ := h
  by_cases hmem : k ∈ mkeys m
  · refine ⟨?_, ?_, ?_⟩ <;> rw [mkeys_mbump, if_pos hmem]
    · exact hseed
    · exact hbound
    · exact hnd
  · refine ⟨?_, ?_, ?_⟩ <;> rw [mkeys_mbump, if_neg hmem]
    · exact fun j h1 h2 => List.mem_append_left _ (hseed j h1 h2)
    · intro x hx
      rcases List.mem_append.mp hx with hx | hx
      · exact hbound x hx
      · have : x = k := by simpa using hx
        subst this
        exact ⟨hk1, hk2⟩
    · rw [List.nodup_append]
      refine ⟨hnd, List.nodup_singleton _, ?_⟩
      intro a ha hb
      have : a = k := by simpa using hb
      subst this
      exact hmem ha

theorem keysOK_fillStep (email : String) (now : Nat) (st : CommitHist × FileHist)
    (c : Commit) (h : KeysOK st.1) : KeysOK ((fillStep email now st c).1) := by
  simp only [fillStep]
  split_ifs with h1 h2
  · exact h
  · show KeysOK (mbump st.1 _)
    have hb := countDaysSinceDate_bounds now c.whenSec
    have ho := calcOffset_bounds (weekdayOf now)
    have h183 : daysInLastSixMonths = 183 := rfl
    have hoor : outOfRange = 99999 := rfl
    rcases hb with hb | hb
    · exact keysOK_mbump _ _ h (by omega) (by omega)
    · exact keysOK_mbump _ _ h (by omega) (by omega)
  · exact h

theorem keysOK_fill_fold (email : String) (now : Nat) (cs : List Commit) :
    ∀ st : CommitHist × FileHist, KeysOK st.1 →
      KeysOK ((cs.foldl (fillStep email now) st).1) := by
  induction cs with
  | nil => intro st h; exact h
  | cons c cs ih =>
    intro st h
    rw [List.foldl_cons]
    exact ih _ (keysOK_fillStep email now st c h)

theorem keysOK_fillCommits (email : String) (now : Nat) (commitsIn : CommitHist)
    (cs : List Commit) (h : KeysOK commitsIn) :
    KeysOK ((fillCommits email now commitsIn cs).1) :=
  keysOK_fill_fold email now cs (commitsIn, []) h

theorem keysOK_procLoop (email : String) (now : Nat) :
    ∀ (repos : List (List Commit)) (commits : CommitHist) (allFT : FileHist),
      KeysOK commits → KeysOK ((procLoop email now repos commits allFT).1) := by
  intro repos
  induction repos with
  | nil => intro commits allFT h; exact h
  | cons repo rest ih =>
    intro commits allFT h
    exact ih _ _ (keysOK_fillCommits email now commits repo h)

/-! ### Structure of the sorted key list -/

theorem sorted_le_range' : ∀ (n s : Nat), List.Sorted (· ≤ ·) (List.range' s n) := by
  intro n
  induction n with
  | zero => intro s; simp
  | succ n ih =>
    intro s
    rw [List.range'_succ, List.sorted_cons]
    refine ⟨fun b hb => ?_, ih (s + 1)⟩
    rw [List.mem_range'] at hb
    obtain ⟨i, _, rfl⟩ := hb
    omega

theorem sortMapIntoSlice_struct (m : CommitHist) (h : KeysOK m) :
    ∃ E : List Nat, sortMapIntoSlice m = List.range' 1 daysInLastSixMonths ++ E ∧
      ∀ e ∈ E, 184 ≤ e := by
  obtain ⟨hseed, hbound, hnd⟩ := h
  have h183 : daysInLastSixMonths = 183 := rfl
  have hS_sorted : (sortMapIntoSlice m).Sorted (· ≤ ·) :=
    List.sorted_insertionSort _ _
  have hS_perm : (sortMapIntoSlice m).Perm (mkeys m) := List.perm_insertionSort _ _
  have hS_nodup : (sortMapIntoSlice m).Nodup := hS_perm.nodup_iff.mpr hnd
  refine ⟨(sortMapIntoSlice m).filter (fun k => decide (183 < k)), ?_, ?_⟩
  swap
  · intro e he
    have := List.of_mem_filter he
    simp only [decide_eq_true_eq] at this
    omega
  have hE_nodup : ((sortMapIntoSlice m).filter (fun k => decide (183 < k))).Nodup :=
    hS_nodup.filter _
  have hRHS_sorted : (List.range' 1 daysInLastSixMonths ++
      (sortMapIntoSlice m).filter (fun k => decide (183 < k))).Sorted (· ≤ ·) := by
    refine List.pairwise_append.mpr ⟨sorted_le_range' _ _, hS_sorted.filter _, ?_⟩
    intro a ha b hb
    rw [List.mem_range'] at ha
    obtain ⟨i, hi, rfl⟩ := ha
    have := List.of_mem_filter hb
    simp only [decide_eq_true_eq] at this
    omega
  have hRHS_nodup : (List.range' 1 daysInLastSixMonths ++
      (sortMapIntoSlice m).filter (fun k => decide (183 < k))).Nodup := by
    rw [List.nodup_append]
    refine ⟨List.nodup_range' _ _, hE_nodup, ?_⟩
    intro a ha hb
    rw [List.mem_range'] at ha
    obtain ⟨i, hi, rfl⟩ := ha
    have := List.of_mem_filter hb
    simp only [decide_eq_true_eq] at this
    omega
  have hmm : ∀ x, x ∈ sortMapIntoSlice m ↔ x ∈ List.range' 1 daysInLastSixMonths ++
      (sortMapIntoSlice m).filter (fun k => decide (183 < k)) := by
    intro x
    rw [List.mem_append]
    constructor
    · intro hx
      have hxk := hS_perm.mem_iff.mp hx
      have hb := hbound x hxk
      by_cases hle : x ≤ 183
      · left
        rw [List.mem_range']
        exact ⟨x - 1, by omega, by omega⟩
      · right
        exact List.mem_filter.mpr ⟨hx, by simpa using by omega⟩
    · rintro (hx | hx)
      · rw [List.mem_range'] at hx
        obtain ⟨i, hi, rfl⟩ := hx
        exact hS_perm.mem_iff.mpr (hseed _ (by omega) (by omega))
      · exact (List.mem_filter.mp hx).1
  have hperm : (sortMapIntoSlice m).Perm (List.range' 1 daysInLastSixMonths ++
      (sortMapIntoSlice m).filter (fun k => decide (183 < k))) :=
    (List.perm_ext_iff_of_nodup hS_nodup hRHS_nodup).mpr hmm
  exact List.eq_of_perm_of_sorted hperm hS_sorted hRHS_sorted

/-! ### Structure of the week-column grid -/

/-- The column buildCols seals for a full week w: the counts of buckets
7w through 7w+6 in ascending order. -/
def weekCol (m : CommitHist) (w : Nat) : List Nat :=
  (List.range' (7 * w) 7).map (mget m)

theorem colsGet_colsPut_self : ∀ (cols : Cols) (w : Nat) (c : List Nat),
    colsGet (colsPut cols w c) w = some c := by
  intro cols w c
  induction cols with
  | nil => simp [colsPut, colsGet]
  | cons p rest ih =>
    obtain ⟨a, b⟩ := p
    by_cases haw : a = w
    · simp [colsPut, colsGet, haw]
    · simp only [colsPut, if_neg haw, colsGet]
      exact ih

theorem colsGet_colsPut_ne : ∀ (cols : Cols) (w w' : Nat) (c : List Nat), w' ≠ w →
    colsGet (colsPut cols w c) w' = colsGet cols w' := by
  intro cols w w' c hne
  induction cols with
  | nil =>
    simp only [colsPut, colsGet]
    rw [if_neg (fun hh : w = w' => hne hh.symm)]
  | cons p rest ih =>
    obtain ⟨a, b⟩ := p
    by_cases haw : a = w
    · subst haw
      simp only [colsPut, if_pos rfl, colsGet]
      rw [if_neg (fun hh : a = w' => hne (hh.symm)), if_neg (fun hh : a = w' => hne hh.symm)]
    · simp only [colsPut, if_neg haw, colsGet]
      by_cases haw' : a = w'
      · rw [if_pos haw', if_pos haw']
      · rw [if_neg haw', if_neg haw']
        exact ih

theorem buildStep_start (m : CommitHist) (st : Cols × List Nat) (k : Nat)
    (hk0 : k % 7 = 0) :
    buildStep m st k = (st.1, [mget m k]) := by
  simp [buildStep, hk0]

theorem buildStep_mid (m : CommitHist) (st : Cols × List Nat) (k : Nat)
    (hk0 : ¬ k % 7 = 0) (hk6 : ¬ k % 7 = 6) :
    buildStep m st k = (st.1, st.2 ++ [mget m k]) := by
  simp [buildStep, hk0, hk6]

theorem buildStep_end (m : CommitHist) (st : Cols × List Nat) (k : Nat)
    (hk6 : k % 7 = 6) :
    buildStep m st k = (colsPut st.1 (k / 7) (st.2 ++ [mget m k]), st.2 ++ [mget m k]) := by
  have hk0 : ¬ k % 7 = 0 := by omega
  simp [buildStep, hk0, hk6]

theorem buildFold_week (m : CommitHist) (w : Nat) (st : Cols × List Nat) (_hw : 1 ≤ w) :
    List.foldl (buildStep m) st (List.range' (7 * w) 7) =
      (colsPut st.1 w (weekCol m w), weekCol m w) := by
  have e : List.range' (7 * w) 7 =
      [7 * w, 7 * w + 1, 7 * w + 2, 7 * w + 3, 7 * w + 4, 7 * w + 5, 7 * w + 6] := rfl
  rw [e]
  simp only [List.foldl_cons, List.foldl_nil]
  rw [buildStep_start m _ (7 * w) (by omega)]
  rw [buildStep_mid m _ (7 * w + 1) (by omega) (by omega)]
  rw [buildStep_mid m _ (7 * w + 2) (by omega) (by omega)]
  rw [buildStep_mid m _ (7 * w + 3) (by omega) (by omega)]
  rw [buildStep_mid m _ (7 * w + 4) (by omega) (by omega)]
  rw [buildStep_mid m _ (7 * w + 5) (by omega) (by omega)]
  rw [buildStep_end m _ (7 * w + 6) (by omega)]
  rw [show (7 * w + 6) / 7 = w from by omega]
  rfl

theorem buildFold_week0 (m : CommitHist) :
    List.foldl (buildStep m) (([] : Cols), ([] : List Nat)) (List.range' 1 6) =
      ([(0, (List.range' 1 6).map (mget m))], (List.range' 1 6).map (mget m)) := by
  have e : List.range' 1 6 = [1, 2, 3, 4, 5, 6] := rfl
  rw [e]
  simp only [List.foldl_cons, List.foldl_nil]
  rw [buildStep_mid m _ 1 (by omega) (by omega)]
  rw [buildStep_mid m _ 2 (by omega) (by omega)]
  rw [buildStep_mid m _ 3 (by omega) (by omega)]
  rw [buildStep_mid m _ 4 (by omega) (by omega)]
  rw [buildStep_mid m _ 5 (by omega) (by omega)]
  rw [buildStep_end m _ 6 (by omega)]
  rfl

/-- The column store after sealing weeks 1 through n on top of cs. -/
def putWeeks (m : CommitHist) (cs : Cols) (n : Nat) : Cols :=
  (List.range' 1 n).foldl (fun acc w => colsPut acc w (weekCol m w)) cs

theorem putWeeks_succ (m : CommitHist) (cs : Cols) (n : Nat) :
    putWeeks m cs (n + 1) = colsPut (putWeeks m cs n) (1 + n) (weekCol m (1 + n)) := by
  simp only [putWeeks, List.range'_1_concat, List.foldl_append, List.foldl_cons,
    List.foldl_nil]

theorem colsGet_putWeeks (m : CommitHist) : ∀ (n : Nat) (cs : Cols) (w : Nat),
    colsGet (putWeeks m cs n) w =
      if 1 ≤ w ∧ w ≤ n then some (weekCol m w) else colsGet cs w := by
  intro n
  induction n with
  | zero =>
    intro cs w
    rw [if_neg (by omega)]
    rfl
  | succ n ih =>
    intro cs w
    rw [putWeeks_succ]
    by_cases hw : w = 1 + n
    · subst hw
      rw [colsGet_colsPut_self, if_pos (by omega)]
    · rw [colsGet_colsPut_ne _ _ _ _ hw, ih]
      by_cases hcond : 1 ≤ w ∧ w ≤ n
      · rw [if_pos hcond, if_pos (by omega)]
      · rw [if_neg hcond, if_neg (by omega)]

theorem buildFold_weeks (m : CommitHist) : ∀ (n : Nat) (st : Cols × List Nat),
    List.foldl (buildStep m) st (List.range' 7 (7 * n)) =
      (putWeeks m st.1 n, if n = 0 then st.2 else weekCol m n) := by
  intro n
  induction n with
  | zero =>
    intro st
    simp [putWeeks]
  | succ n ih =>
    intro st
    have hsplit : List.range' 7 (7 * (n + 1)) =
        List.range' 7 (7 * n) ++ List.range' (7 + 7 * n) 7 := by
      rw [show 7 * (n + 1) = 7 + 7 * n from by ring]
      exact (List.range'_append_1 7 (7 * n) 7).symm
    rw [hsplit, List.foldl_append, ih st]
    rw [show (7 + 7 * n : Nat) = 7 * (n + 1) from by ring]
    rw [buildFold_week m (n + 1) _ (by omega)]
    rw [putWeeks_succ]
    rw [if_neg (Nat.succ_ne_zero n)]
    rw [show (1 + n : Nat) = n + 1 from by ring]

theorem buildFold_high (m : CommitHist) : ∀ (l : List Nat) (st : Cols × List Nat),
    (∀ k ∈ l, 184 ≤ k) → ∀ w, w ≤ 25 →
      colsGet ((List.foldl (buildStep m) st l).1) w = colsGet st.1 w := by
  intro l
  induction l with
  | nil => intro st _ w _; rfl
  | cons k ks ih =>
    intro st hk w hw
    have hk184 : 184 ≤ k := hk k (List.mem_cons_self _ _)
    rw [List.foldl_cons, ih _ (fun x hx => hk x (List.mem_cons_of_mem _ hx)) w hw]
    simp only [buildStep]
    split_ifs <;> first | rfl | exact colsGet_colsPut_ne _ _ _ _ (by omega)

/-- Full structural description of the grid built from any histogram whose
keys satisfy the aggregation invariant: week 0 holds exactly the six entries
for buckets 1..6, weeks 1..25 hold their seven entries, and if no key escapes
the window there is no column for week 26 (buckets 182 and 183 are dropped,
because no end-of-sequence sealing exists). -/
theorem buildCols_of_keysOK (m : CommitHist) (h : KeysOK m) :
    colsGet (buildCols (sortMapIntoSlice m) m) 0 =
        some ((List.range' 1 6).map (mget m)) ∧
    (∀ w, 1 ≤ w → w ≤ 25 →
      colsGet (buildCols (sortMapIntoSlice m) m) w = some (weekCol m w)) ∧
    ((∀ k ∈ mkeys m, k ≤ daysInLastSixMonths) →
      colsGet (buildCols (sortMapIntoSlice m) m) 26 = none) := by
  obtain ⟨E, hE, hEmem⟩ := sortMapIntoSlice_struct m h
  have hdecomp : List.range' 1 daysInLastSixMonths =
      (List.range' 1 6 ++ List.range' 7 (7 * 25)) ++ List.range' 182 2 := by
    have h1 : List.range' 1 6 ++ List.range' 7 (7 * 25) = List.range' 1 181 := by
      have := List.range'_append_1 1 6 (7 * 25)
      norm_num at this ⊢
      exact this
    have h2 : List.range' 1 181 ++ List.range' 182 2 = List.range' 1 183 := by
      have := List.range'_append_1 1 181 2
      norm_num at this ⊢
      exact this
    rw [h1, h2]
    rfl
  have hmain : ∀ w, w ≤ 25 →
      colsGet (buildCols (sortMapIntoSlice m) m) w =
        colsGet (putWeeks m [(0, (List.range' 1 6).map (mget m))] 25) w := by
    intro w hw
    unfold buildCols
    rw [hE, hdecomp, List.foldl_append, List.foldl_append, List.foldl_append]
    rw [buildFold_week0, buildFold_weeks m 25]
    rw [show List.range' 182 2 = [182, 183] from rfl]
    simp only [List.foldl_cons, List.foldl_nil]
    rw [buildStep_start m _ 182 (by norm_num)]
    rw [buildStep_mid m _ 183 (by norm_num) (by norm_num)]
    rw [buildFold_high m E _ hEmem w hw]
  refine ⟨?_, ?_, ?_⟩
  · rw [hmain 0 (by omega), colsGet_putWeeks, if_neg (by omega)]
    rfl
  · intro w h1 h2
    rw [hmain w h2, colsGet_putWeeks, if_pos ⟨h1, h2⟩]
  · intro hall
    have hEnil : E = [] := by
      cases E with
      | nil => rfl
      | cons e es =>
        exfalso
        have he : e ∈ sortMapIntoSlice m := by
          rw [hE]
          exact List.mem_append_right _ (List.mem_cons_self _ _)
        have hek : e ∈ mkeys m := by
          simpa [sortMapIntoSlice] using he
        have hle := hall e hek
        have hge := hEmem e (List.mem_cons_self _ _)
        have h183 : daysInLastSixMonths = 183 := rfl
        omega
    subst hEnil
    unfold buildCols
    rw [hE, hdecomp, List.foldl_append, List.foldl_append, List.foldl_append]
    rw [buildFold_week0, buildFold_weeks m 25]
    rw [show List.range' 182 2 = [182, 183] from rfl]
    simp only [List.foldl_cons, List.foldl_nil]
    rw [buildStep_start m _ 182 (by norm_num)]
    rw [buildStep_mid m _ 183 (by norm_num) (by norm_num)]
    rw [colsGet_putWeeks, if_neg (by omega)]
    rfl

/-! ### When the renderer panics -/

theorem renderCellAt_none_iff (cols : Cols) (offset i j : Nat) :
    renderCellAt cols offset i j = none ↔
      (i = 0 ∧ j = offset - 1 ∧ ∃ col, colsGet cols i = some col ∧ col.length ≤ j) := by
  unfold renderCellAt
  cases hc : colsGet cols i with
  | none => simp [hc]
  | some col =>
    dsimp only
    by_cases hij : i = 0 ∧ j = offset - 1
    · rw [if_pos hij]
      obtain ⟨hi, hj⟩ := hij
      simp [hc, hi, hj, Option.map_eq_none', List.getElem?_eq_none_iff]
    · rw [if_neg hij]
      split_ifs <;>
        exact ⟨fun hcontra => absurd hcontra (by simp),
          fun hr => absurd ⟨hr.1, hr.2.1⟩ hij⟩

theorem renderRow_none_iff (cols : Cols) (offset j : Nat) :
    ∀ l : List Nat, renderRow cols offset j l = none ↔
      ∃ i ∈ l, renderCellAt cols offset i j = none := by
  intro l
  induction l with
  | nil => simp [renderRow]
  | cons i is ih =>
    cases hcell : renderCellAt cols offset i j with
    | none =>
      simp only [renderRow, hcell]
      constructor
      · intro _
        exact ⟨i, List.mem_cons_self _ _, hcell⟩
      · intro _
        trivial
    | some c =>
      cases hrow : renderRow cols offset j is with
      | none =>
        simp only [renderRow, hcell, hrow]
        constructor
        · intro _
          obtain ⟨a, ha, hca⟩ := ih.mp hrow
          exact ⟨a, List.mem_cons_of_mem _ ha, hca⟩
        · intro _
          trivial
      | some cs =>
        simp only [renderRow, hcell, hrow]
        constructor
        · intro hcontra
          exact absurd hcontra (by simp)
        · rintro ⟨a, ha, hca⟩
          rcases List.mem_cons.mp ha with rfl | ha
          · rw [hcell] at hca
            exact absurd hca (by simp)
          · have := ih.mpr ⟨a, ha, hca⟩
            rw [hrow] at this
            exact absurd this (by simp)

theorem renderRows_none_iff (cols : Cols) (offset : Nat) :
    ∀ js : List Nat, renderRows cols offset js = none ↔
      ∃ j ∈ js, renderRow cols offset j
        ((List.range (weeksInLastSixMonths + 2)).reverse) = none := by
  intro js
  induction js with
  | nil => simp [renderRows]
  | cons j js ih =>
    cases hrow : renderRow cols offset j
        ((List.range (weeksInLastSixMonths + 2)).reverse) with
    | none =>
      simp only [renderRows, hrow]
      constructor
      · intro _
        exact ⟨j, List.mem_cons_self _ _, hrow⟩
      · intro _
        trivial
    | some r =>
      cases hrows : renderRows cols offset js with
      | none =>
        simp only [renderRows, hrow, hrows]
        constructor
        · intro _
          obtain ⟨a, ha, hra⟩ := ih.mp hrows
          exact ⟨a, List.mem_cons_of_mem _ ha, hra⟩
        · intro _
          trivial
      | some rs =>
        simp only [renderRows, hrow, hrows]
        constructor
        · intro hcontra
          exact absurd hcontra (by simp)
        · rintro ⟨a, ha, hra⟩
          rcases List.mem_cons.mp ha with rfl | ha
          · rw [hrow] at hra
            exact absurd hra (by simp)
          · have := ih.mpr ⟨a, ha, hra⟩
            rw [hrows] at this
            exact absurd this (by simp)

theorem printCellsModel_none_iff (cols : Cols) (offset : Nat) :
    printCellsModel cols offset = none ↔
      ∃ j, j < 7 ∧ ∃ i, i < weeksInLastSixMonths + 2 ∧
        renderCellAt cols offset i j = none := by
  rw [printCellsModel, renderRows_none_iff]
  constructor
  · rintro ⟨j, hj, hrow⟩
    rw [renderRow_none_iff] at hrow
    obtain ⟨i, hi, hcell⟩ := hrow
    refine ⟨j, ?_, i, ?_, hcell⟩
    · simpa using hj
    · simpa using hi
  · rintro ⟨j, hj, i, hi, hcell⟩
    refine ⟨j, by simpa using hj, ?_⟩
    rw [renderRow_none_iff]
    exact ⟨i, by simpa using hi, hcell⟩

/-- C2 amended: in the grid built from any aggregated histogram, week 0 is
sealed with exactly the six entries for buckets 1..6, each week 1..25 is
sealed with exactly its seven bucket entries in ascending order (so buckets
1..181 each appear in exactly one column), but sealing happens only at
bucket mod 7 = 6: when no key escapes the window there is no column for week
26, so the trailing partial week holding buckets 182 and 183 is dropped. -/
theorem c2_grid_buckets (email : String) (now : Nat) (repos : List (List Commit)) :
    colsGet
        (buildCols (sortMapIntoSlice ((procLoop email now repos seedHist []).1))
          ((procLoop email now repos seedHist []).1)) 0 =
      some ((List.range' 1 6).map (mget ((procLoop email now repos seedHist []).1))) ∧
    (∀ w, 1 ≤ w → w ≤ 25 →
      colsGet
          (buildCols (sortMapIntoSlice ((procLoop email now repos seedHist []).1))
            ((procLoop email now repos seedHist []).1)) w =
        some (weekCol ((procLoop email now repos seedHist []).1) w)) ∧
    ((∀ k ∈ mkeys ((procLoop email now repos seedHist []).1), k ≤ daysInLastSixMonths) →
      colsGet
          (buildCols (sortMapIntoSlice ((procLoop email now repos seedHist []).1))
            ((procLoop email now repos seedHist []).1)) 26 = none) :=
  buildCols_of_keysOK _ (keysOK_procLoop email now repos seedHist [] keysOK_seedHist)

set_option maxRecDepth 100000 in
/-- Witness for C2 amended on the empty repository list: week 3 is stored
with its seven buckets and week 26 is absent. -/
theorem c2_grid_buckets_witness :
    ((1 : Nat) ≤ 3 ∧ (3 : Nat) ≤ 25 ∧
     colsGet
        (buildCols (sortMapIntoSlice ((procLoop ("") 0 [] seedHist []).1))
          ((procLoop ("") 0 [] seedHist []).1)) 3 =
       some (weekCol ((procLoop ("") 0 [] seedHist []).1) 3)) ∧
    ((∀ k ∈ mkeys ((procLoop ("") 0 [] seedHist []).1), k ≤ daysInLastSixMonths) ∧
     colsGet
        (buildCols (sortMapIntoSlice ((procLoop ("") 0 [] seedHist []).1))
          ((procLoop ("") 0 [] seedHist []).1)) 26 = none) :=
  ⟨⟨by decide, by decide, (c2_grid_buckets ("") 0 []).2.1 3 (by decide) (by decide)⟩,
   ⟨by decide, (c2_grid_buckets ("") 0 []).2.2 (by decide)⟩⟩

/-- C3: for every aggregation run, the week-0 column of the rendered grid
holds exactly 6 entries (buckets 1..6), and rendering panics by indexing that
column out of bounds at the unguarded today cell exactly when today is
Sunday, the weekday whose alignment offset is 7. -/
theorem c3_sunday_today_cell_out_of_bounds (email : String) (now : Nat)
    (repos : List (List Commit)) :
    (colsGet
        (buildCols (sortMapIntoSlice ((procLoop email now repos seedHist []).1))
          ((procLoop email now repos seedHist []).1)) 0 =
      some ((List.range' 1 6).map (mget ((procLoop email now repos seedHist []).1))) ∧
     ((List.range' 1 6).map (mget ((procLoop email now repos seedHist []).1))).length = 6) ∧
    (printCellsModel
        (buildCols (sortMapIntoSlice ((procLoop email now repos seedHist []).1))
          ((procLoop email now repos seedHist []).1))
        (calcOffset (weekdayOf now)) = none ↔
      weekdayOf now = Weekday.sunday) := by
  have hOK : KeysOK ((procLoop email now repos seedHist []).1) :=
    keysOK_procLoop email now repos seedHist [] keysOK_seedHist
  obtain ⟨hcol0, hweeks, h26⟩ := buildCols_of_keysOK _ hOK
  have hlen :
      ((List.range' 1 6).map (mget ((procLoop email now repos seedHist []).1))).length = 6 := by
    simp
  refine ⟨⟨hcol0, hlen⟩, ?_⟩
  have hob := calcOffset_bounds (weekdayOf now)
  rw [printCellsModel_none_iff]
  constructor
  · rintro ⟨j, hj7, i, hi28, hcell⟩
    rw [renderCellAt_none_iff] at hcell
    obtain ⟨hi0, hjoff, col, hcolsome, hclen⟩ := hcell
    subst hi0
    rw [hcol0] at hcolsome
    have hcol :
        col = (List.range' 1 6).map (mget ((procLoop email now repos seedHist []).1)) :=
      (Option.some_inj.mp hcolsome).symm
    rw [hcol, hlen] at hclen
    rw [← calcOffset_eq_seven_iff]
    omega
  · intro hsun
    have hoff : calcOffset (weekdayOf now) = 7 := (calcOffset_eq_seven_iff _).mpr hsun
    refine ⟨6, by omega, 0, by decide, ?_⟩
    rw [renderCellAt_none_iff]
    exact ⟨rfl, by omega, _, hcol0, le_of_eq hlen⟩

/-- C5 amended: after any aggregation run, every histogram key is positive,
and is either at most 190 (the window plus the maximal alignment offset) or
lies in the band 100000..100006 produced by out-of-window commits through
the misfiring sentinel check; keys are not confined to 0..183. -/
theorem c5_amended_key_range (email : String) (now : Nat) (repos : List (List Commit))
    (k : Nat) (hk : k ∈ mkeys ((procLoop email now repos seedHist []).1)) :
    1 ≤ k ∧ (k ≤ daysInLastSixMonths + 7 ∨
      (outOfRange + 1 ≤ k ∧ k ≤ outOfRange + 7)) := by
  have hOK := keysOK_procLoop email now repos seedHist [] keysOK_seedHist
  have hb := hOK.2.1 k hk
  have h183 : daysInLastSixMonths = 183 := rfl
  have hoor : outOfRange = 99999 := rfl
  omega

set_option maxRecDepth 100000 in
/-- Witness for C5 amended: key 50 of the seeded run. -/
theorem c5_amended_key_range_witness :
    50 ∈ mkeys ((procLoop ("") 0 [] seedHist []).1) ∧
    (1 ≤ 50 ∧ ((50 : Nat) ≤ daysInLastSixMonths + 7 ∨
      (outOfRange + 1 ≤ 50 ∧ (50 : Nat) ≤ outOfRange + 7))) :=
  ⟨by decide, c5_amended_key_range ("") 0 [] 50 (by decide)⟩

/-- Witness for C3: with no repositories and day 192 (a Sunday) as now, the
renderer panics. -/
theorem c3_sunday_today_cell_out_of_bounds_witness :
    weekdayOf (86400 * 192) = Weekday.sunday ∧
    printCellsModel
        (buildCols (sortMapIntoSlice ((procLoop ("") (86400 * 192) [] seedHist []).1))
          ((procLoop ("") (86400 * 192) [] seedHist []).1))
        (calcOffset (weekdayOf (86400 * 192))) = none :=
  ⟨by decide,
    (c3_sunday_today_cell_out_of_bounds ("") (86400 * 192) []).2.mpr (by decide)⟩

/-- Witness for C10: the filename readme has no dot and maps to the sentinel
category, and a filename ending in dot go maps to the .go extension. -/
theorem c10_extension_extraction_witness :
    ('.' ∉ "readme".toList ∧
      getFileExtension ("readme".toList) = "no_extension".toList) ∧
    ('.' ∉ "go".toList ∧
      getFileExtension ("main".toList ++ '.' :: "go".toList) = '.' :: "go".toList) :=
  ⟨⟨by decide, c10_extension_extraction.1 ("readme".toList) (by decide)⟩,
   ⟨by decide, c10_extension_extraction.2.1 ("main".toList) ("go".toList) (by decide)⟩⟩

/-! ### Additivity of the aggregation -/

/-- Contribution of one commit to one histogram bucket: 1 exactly when the
author matches, the aligned sum passes the sentinel check, and the bucket is
the aligned sum. -/
def commitDelta (email : String) (now : Nat) (c : Commit) (k : Nat) : Nat :=
  if c.authorEmail = email ∧
      countDaysSinceDate now c.whenSec + calcOffset (weekdayOf now) ≠ outOfRange ∧
      k = countDaysSinceDate now c.whenSec + calcOffset (weekdayOf now)
  then 1 else 0

/-- Number of changed files of a commit whose extension is e. -/
def fileDelta (c : Commit) (e : List Char) : Nat :=
  (c.files.map (fun f => if e = getFileExtension f then 1 else 0)).sum

/-- Contribution of one commit to one file type count. -/
def commitFileDelta (email : String) (now : Nat) (c : Commit) (e : List Char) : Nat :=
  if c.authorEmail = email ∧
      countDaysSinceDate now c.whenSec + calcOffset (weekdayOf now) ≠ outOfRange
  then fileDelta c e else 0

/-- Contribution of a commit stream to one histogram bucket. -/
def commitsDelta (email : String) (now : Nat) (cs : List Commit) (k : Nat) : Nat :=
  (cs.map (fun c => commitDelta email now c k)).sum

/-- Contribution of a commit stream to one file type count. -/
def commitsFileDelta (email : String) (now : Nat) (cs : List Commit) (e : List Char) : Nat :=
  (cs.map (fun c => commitFileDelta email now c e)).sum

/-- Contribution of a repository list to one histogram bucket. -/
def reposDelta (email : String) (now : Nat) (rs : List (List Commit)) (k : Nat) : Nat :=
  (rs.map (fun r => commitsDelta email now r k)).sum

/-- Contribution of a repository list to one file type count. -/
def reposFileDelta (email : String) (now : Nat) (rs : List (List Commit)) (e : List Char) : Nat :=
  (rs.map (fun r => commitsFileDelta email now r e)).sum

theorem processFileTypes_mget (c : Commit) (ft : FileHist) (e : List Char) :
    mget (processFileTypes c ft) e = mget ft e + fileDelta c e := by
  have hgen : ∀ (fs : List (List Char)) (m : FileHist),
      mget (fs.foldl (fun m f => mbump m (getFileExtension f)) m) e =
        mget m e + (fs.map (fun f => if e = getFileExtension f then 1 else 0)).sum := by
    intro fs
    induction fs with
    | nil => intro m; simp
    | cons f fs ih =>
      intro m
      rw [List.foldl_cons, ih, mget_mbump]
      simp only [List.map_cons, List.sum_cons]
      omega
  exact hgen c.files ft

theorem fillStep_fst_mget (email : String) (now : Nat) (st : CommitHist × FileHist)
    (c : Commit) (k : Nat) :
    mget ((fillStep email now st c).1) k = mget st.1 k + commitDelta email now c k := by
  by_cases h1 : c.authorEmail = email
  · by_cases h2 : countDaysSinceDate now c.whenSec + calcOffset (weekdayOf now) = outOfRange
    · simp only [fillStep, commitDelta]
      rw [if_neg (not_not_intro h1), if_neg (not_not_intro h2), if_neg (by tauto)]
      omega
    · simp only [fillStep, commitDelta]
      rw [if_neg (not_not_intro h1), if_pos h2]
      show mget (mbump st.1 _) k = _
      rw [mget_mbump]
      by_cases h3 : k = countDaysSinceDate now c.whenSec + calcOffset (weekdayOf now)
      · rw [if_pos h3, if_pos ⟨h1, h2, h3⟩]
      · rw [if_neg h3, if_neg (by tauto)]
  · simp only [fillStep, commitDelta]
    rw [if_pos h1, if_neg (by tauto)]
    omega

theorem fillStep_snd_mget (email : String) (now : Nat) (st : CommitHist × FileHist)
    (c : Commit) (e : List Char) :
    mget ((fillStep email now st c).2) e = mget st.2 e + commitFileDelta email now c e := by
  by_cases h1 : c.authorEmail = email
  · by_cases h2 : countDaysSinceDate now c.whenSec + calcOffset (weekdayOf now) = outOfRange
    · simp only [fillStep, commitFileDelta]
      rw [if_neg (not_not_intro h1), if_neg (not_not_intro h2), if_neg (by tauto)]
      omega
    · simp only [fillStep, commitFileDelta]
      rw [if_neg (not_not_intro h1), if_pos h2, if_pos ⟨h1, h2⟩]
      exact processFileTypes_mget c st.2 e
  · simp only [fillStep, commitFileDelta]
    rw [if_pos h1, if_neg (by tauto)]
    omega

theorem fill_fold_mget (email : String) (now : Nat) (cs : List Commit) :
    ∀ st : CommitHist × FileHist,
      (∀ k, mget ((cs.foldl (fillStep email now) st).1) k =
        mget st.1 k + commitsDelta email now cs k) ∧
      (∀ e, mget ((cs.foldl (fillStep email now) st).2) e =
        mget st.2 e + commitsFileDelta email now cs e) := by
  induction cs with
  | nil =>
    intro st
    constructor <;> intro x <;> simp [commitsDelta, commitsFileDelta]
  | cons c cs ih =>
    intro st
    rw [List.foldl_cons]
    constructor
    · intro k
      rw [(ih _).1 k, fillStep_fst_mget]
      simp only [commitsDelta, List.map_cons, List.sum_cons]
      omega
    · intro e
      rw [(ih _).2 e, fillStep_snd_mget]
      simp only [commitsFileDelta, List.map_cons, List.sum_cons]
      omega

theorem fillCommits_fst_mget (email : String) (now : Nat) (commitsIn : CommitHist)
    (cs : List Commit) (k : Nat) :
    mget ((fillCommits email now commitsIn cs).1) k =
      mget commitsIn k + commitsDelta email now cs k :=
  (fill_fold_mget email now cs (commitsIn, [])).1 k

theorem fillCommits_snd_mget (email : String) (now : Nat) (commitsIn : CommitHist)
    (cs : List Commit) (e : List Char) :
    mget ((fillCommits email now commitsIn cs).2) e = commitsFileDelta email now cs e := by
  show mget ((cs.foldl (fillStep email now) (commitsIn, [])).2) e = _
  rw [(fill_fold_mget email now cs (commitsIn, [])).2 e]
  simp [mget]

theorem mkeys_nodup_mbump [DecidableEq α] (m : List (α × Nat)) (k : α)
    (h : (mkeys m).Nodup) : (mkeys (mbump m k)).Nodup := by
  rw [mkeys_mbump]
  split_ifs with hmem
  · exact h
  · rw [List.nodup_append]
    refine ⟨h, List.nodup_singleton _, ?_⟩
    intro a ha hb
    have : a = k := by simpa using hb
    subst this
    exact hmem ha

theorem processFileTypes_nodup (c : Commit) (ft : FileHist)
    (h : (mkeys ft).Nodup) : (mkeys (processFileTypes c ft)).Nodup := by
  have hgen : ∀ (fs : List (List Char)) (m : FileHist), (mkeys m).Nodup →
      (mkeys (fs.foldl (fun m f => mbump m (getFileExtension f)) m)).Nodup := by
    intro fs
    induction fs with
    | nil => intro m hm; exact hm
    | cons f fs ih =>
      intro m hm
      rw [List.foldl_cons]
      exact ih _ (mkeys_nodup_mbump _ _ hm)
  exact hgen c.files ft h

theorem fillCommits_snd_nodup (email : String) (now : Nat) (commitsIn : CommitHist)
    (cs : List Commit) : (mkeys ((fillCommits email now commitsIn cs).2)).Nodup := by
  have hgen : ∀ st : CommitHist × FileHist, (mkeys st.2).Nodup →
      (mkeys ((cs.foldl (fillStep email now) st).2)).Nodup := by
    induction cs with
    | nil => intro st h; exact h
    | cons c cs ih =>
      intro st h
      rw [List.foldl_cons]
      apply ih
      simp only [fillStep]
      split_ifs
      · exact h
      · exact processFileTypes_nodup c _ h
      · exact h
  exact hgen (commitsIn, []) (by simp [mkeys])

theorem mergeFileTypes_mget (acc newFT : FileHist) (e : List Char)
    (hn : (mkeys newFT).Nodup) :
    mget (mergeFileTypes acc newFT) e = mget acc e + mget newFT e := by
  induction newFT generalizing acc with
  | nil => simp [mergeFileTypes, mget]
  | cons p rest ih =>
    obtain ⟨k, v⟩ := p
    have hcons : (mkeys ((k, v) :: rest)).Nodup := hn
    have hk_not : k ∉ mkeys rest := by
      have := (List.nodup_cons.mp hcons).1
      simpa [mkeys] using this
    have hrest : (mkeys rest).Nodup := (List.nodup_cons.mp hcons).2
    rw [show mergeFileTypes acc ((k, v) :: rest) = mergeFileTypes (mAdd acc k v) rest from rfl]
    rw [ih (mAdd acc k v) hrest, mget_mAdd]
    simp only [mget]
    by_cases hek : e = k
    · have hz : mget rest e = 0 := by
        rw [hek]
        exact mget_eq_zero_of_not_mem _ _ hk_not
      rw [if_pos hek, if_pos hek.symm, hz]
      omega
    · rw [if_neg hek, if_neg (fun hh => hek hh.symm)]
      omega

theorem procLoop_mget (email : String) (now : Nat) :
    ∀ (repos : List (List Commit)) (commits : CommitHist) (allFT : FileHist),
      (∀ k, mget ((procLoop email now repos commits allFT).1) k =
        mget commits k + reposDelta email now repos k) ∧
      (∀ e, mget ((procLoop email now repos commits allFT).2) e =
        mget allFT e + reposFileDelta email now repos e) := by
  intro repos
  induction repos with
  | nil =>
    intro commits allFT
    constructor <;> intro x <;> simp [procLoop, reposDelta, reposFileDelta]
  | cons r rest ih =>
    intro commits allFT
    simp only [procLoop]
    constructor
    · intro k
      rw [(ih _ _).1 k, fillCommits_fst_mget]
      simp only [reposDelta, List.map_cons, List.sum_cons]
      omega
    · intro e
      rw [(ih _ _).2 e,
        mergeFileTypes_mget _ _ e (fillCommits_snd_nodup email now commits r),
        fillCommits_snd_mget]
      simp only [reposFileDelta, List.map_cons, List.sum_cons]
      omega

/-- C8: aggregating a repository list split in two, each half from a freshly
seeded histogram pair, and then adding the two results per bucket and per
extension, gives exactly the one-pass aggregation of the whole list (the
seeded values are all zero, and each increment contributes additively). -/
theorem c8_split_aggregation (email : String) (now : Nat) (A B : List (List Commit)) :
    (∀ k, mget ((procLoop email now (A ++ B) seedHist []).1) k =
        mget ((procLoop email now A seedHist []).1) k +
          mget ((procLoop email now B seedHist []).1) k) ∧
    (∀ e, mget ((procLoop email now (A ++ B) seedHist []).2) e =
        mget ((procLoop email now A seedHist []).2) e +
          mget ((procLoop email now B seedHist []).2) e) := by
  constructor
  · intro k
    rw [(procLoop_mget email now (A ++ B) seedHist []).1 k,
      (procLoop_mget email now A seedHist []).1 k,
      (procLoop_mget email now B seedHist []).1 k, mget_seedHist]
    simp only [reposDelta, List.map_append, List.sum_append]
    omega
  · intro e
    rw [(procLoop_mget email now (A ++ B) seedHist []).2 e,
      (procLoop_mget email now A seedHist []).2 e,
      (procLoop_mget email now B seedHist []).2 e]
    simp only [reposFileDelta, List.map_append, List.sum_append, mget]
    omega

end GitStats
